import Mathlib

/-!
Verification of the inline three-way merge conflict resolver of the
`better-hub` web application: the per-file classification performed by the
merge-conflicts API route, the in-memory per-hunk resolution state machine
of the conflict-resolver component, and the commit-time content assembly.

The embedding follows the TypeScript sources:
  - `apps/web/src/app/api/merge-conflicts/route.ts` (orchestrator),
  - `apps/web/src/components/pr/pr-conflict-resolver.tsx` (tracker, commit).
JavaScript strings are Lean `String`s; `content.split("\n")` is modelled by
a character-level splitter (`split` with a one-character separator keeps
every empty field, including the trailing one), and `Array.prototype.join`
by the matching interleaver.  The three-way merge engine itself lives in a
separate module and is treated as an abstract parameter: the route only
consumes its `{hunks, hasConflicts}` result.
-/

namespace BetterHub

/-- Character-level model of the JavaScript `s.split("\n")`: splitting on a
single newline character, keeping all (also empty and trailing) fields. -/
def splitNlChars : List Char → List (List Char)
  | [] => [[]]
  | c :: rest =>
    match splitNlChars rest with
    | [] => [[]]
    | cur :: others =>
      if c = '\n' then [] :: cur :: others else (c :: cur) :: others

/-- Character-level model of the JavaScript `lines.join("\n")`. -/
def joinNlChars : List (List Char) → List Char
  | [] => []
  | [l] => l
  | l :: ls => l ++ '\n' :: joinNlChars ls

/-- The JavaScript `content.split("\n")` on `String`s. -/
def splitOnNl (s : String) : List String :=
  (splitNlChars s.data).map (fun cs => String.mk cs)

/-- The JavaScript `lines.join("\n")` on `String`s. -/
def joinNl (ls : List String) : String :=
  String.mk (joinNlChars (ls.map String.data))

/-- A merge hunk as produced by the merge engine and the route: either a
clean region carrying its resolved lines, or a conflict carrying the two
sides' lines (`type: "clean" | "conflict"`). -/
inductive MergeHunk where
  | clean (resolvedLines : List String)
  | conflict (baseLines headLines : List String)
deriving DecidableEq, Repr

/-- The result shape returned by `threeWayMerge`. -/
structure MergeResult where
  hunks : List MergeHunk
  hasConflicts : Bool
deriving DecidableEq, Repr

/-- Shape of `ConflictFileData` from `lib/three-way-merge`, as used by the route. -/
structure ConflictFileData where
  path : String
  hunks : List MergeHunk
  hasConflicts : Bool
  autoResolved : Bool
deriving DecidableEq, Repr

/-- Per-file classification of `GET /api/merge-conflicts`
(`route.ts`, lines 94–193): the trivial presence/absence and one-side-changed
cases are decided without the merge engine; only when both sides changed is
the abstract engine `merge` invoked. -/
def classifyFile (merge : List String → List String → List String → MergeResult)
    (path : String) (ancestorContent baseContent headContent : Option String) :
    ConflictFileData :=
  if ancestorContent = none ∧ baseContent = none ∧ headContent ≠ none then
    { path := path, hunks := [.clean (splitOnNl (headContent.getD ""))],
      hasConflicts := false, autoResolved := true }
  else if ancestorContent = none ∧ headContent = none ∧ baseContent ≠ none then
    { path := path, hunks := [.clean (splitOnNl (baseContent.getD ""))],
      hasConflicts := false, autoResolved := true }
  else if baseContent = none ∧ headContent = none then
    { path := path, hunks := [], hasConflicts := false, autoResolved := true }
  else
    let ancestor := splitOnNl (ancestorContent.getD "")
    let baseLines := splitOnNl (baseContent.getD "")
    let headLines := splitOnNl (headContent.getD "")
    let baseChanged := baseContent ≠ ancestorContent
    let headChanged := headContent ≠ ancestorContent
    if baseChanged ∧ ¬headChanged then
      { path := path, hunks := [.clean baseLines],
        hasConflicts := false, autoResolved := true }
    else if headChanged ∧ ¬baseChanged then
      { path := path, hunks := [.clean headLines],
        hasConflicts := false, autoResolved := true }
    else if ¬baseChanged ∧ ¬headChanged then
      { path := path, hunks := [.clean ancestor],
        hasConflicts := false, autoResolved := true }
    else
      let result := merge ancestor baseLines headLines
      { path := path, hunks := result.hunks, hasConflicts := result.hasConflicts,
        autoResolved := !result.hasConflicts }

/-- The classification exactly as the specification words it: only-head,
only-base, both-absent, exactly-one-side-changed, neither-changed, and only
in the both-changed case is the merge engine consulted, with `autoResolved`
the negation of the engine's `hasConflicts`. -/
def classifySpec (merge : List String → List String → List String → MergeResult)
    (path : String) (a b h : Option String) : ConflictFileData :=
  if b = none ∧ h ≠ none ∧ a = none then
    { path := path, hunks := [.clean (splitOnNl (h.getD ""))],
      hasConflicts := false, autoResolved := true }
  else if h = none ∧ b ≠ none ∧ a = none then
    { path := path, hunks := [.clean (splitOnNl (b.getD ""))],
      hasConflicts := false, autoResolved := true }
  else if b = none ∧ h = none then
    { path := path, hunks := [], hasConflicts := false, autoResolved := true }
  else if b ≠ a ∧ h = a then
    { path := path, hunks := [.clean (splitOnNl (b.getD ""))],
      hasConflicts := false, autoResolved := true }
  else if h ≠ a ∧ b = a then
    { path := path, hunks := [.clean (splitOnNl (h.getD ""))],
      hasConflicts := false, autoResolved := true }
  else if b = a ∧ h = a then
    { path := path, hunks := [.clean (splitOnNl (a.getD ""))],
      hasConflicts := false, autoResolved := true }
  else
    let result := merge (splitOnNl (a.getD "")) (splitOnNl (b.getD ""))
      (splitOnNl (h.getD ""))
    { path := path, hunks := result.hunks, hasConflicts := result.hasConflicts,
      autoResolved := !result.hasConflicts }

/-- Hunk resolution statuses of the tracker
(`pr-conflict-resolver.tsx`, `HunkResolutionStatus`). -/
inductive HunkStatus where
  | pending
  | acceptedBase
  | acceptedHead
  | acceptedBoth
  | custom
deriving DecidableEq, Repr

/-- A `HunkResolution`: a status together with the chosen lines. -/
structure HunkResolution where
  status : HunkStatus
  resolvedLines : List String
deriving DecidableEq, Repr

/-- File-level aggregate statuses (`FileResolution.status`). -/
inductive FileStatus where
  | autoResolved
  | pending
  | resolved
deriving DecidableEq, Repr

/-- A `FileResolution`: aggregate status plus one resolution per hunk. -/
structure FileResolution where
  status : FileStatus
  hunkResolutions : List HunkResolution
deriving DecidableEq, Repr

/-- The component's `Map<string, FileResolution>`, as an association list
with the first occurrence of a key authoritative. -/
def ResMap := List (String × FileResolution)
deriving DecidableEq

/-- Model of `Map.prototype.get`. -/
def mapGet : ResMap → String → Option FileResolution
  | [], _ => none
  | e :: rest, k => if e.1 = k then some e.2 else mapGet rest k

/-- Model of `Map.prototype.set`: replace the value of an existing key in place,
otherwise append the new entry. -/
def mapSet : ResMap → String → FileResolution → ResMap
  | [], k, v => [(k, v)]
  | e :: rest, k, v => if e.1 = k then (k, v) :: rest else e :: mapSet rest k v

/-- Initial `FileResolution` for one fetched file (the resolution
initialization loop of `PRConflictResolver`): auto-resolved files get status
`auto-resolved`, others `pending`; clean hunks start `accepted-base` with
their lines, conflict hunks start `pending` with no lines. -/
def initFileResolution (f : ConflictFileData) : FileResolution :=
  if f.autoResolved then
    { status := .autoResolved,
      hunkResolutions := f.hunks.map (fun h =>
        match h with
        | .clean rl => { status := .acceptedBase, resolvedLines := rl }
        | .conflict _ _ => { status := .pending, resolvedLines := [] }) }
  else
    { status := .pending,
      hunkResolutions := f.hunks.map (fun h =>
        match h with
        | .clean rl => { status := .acceptedBase, resolvedLines := rl }
        | .conflict _ _ => { status := .pending, resolvedLines := [] }) }

/-- The whole initial tracker map for a fetched session. -/
def initResolutions (files : List ConflictFileData) : ResMap :=
  files.foldl (fun m f => mapSet m f.path (initFileResolution f)) []

/-- The `updateHunkResolution` helper: replace one hunk's resolution, then recompute
the file's aggregate status (`resolved` iff every hunk is non-pending).
The source asserts the file entry's presence (`next.get(filePath)!`); an
absent entry is modelled as a no-op. -/
def updateHunkResolution (st : ResMap) (filePath : String) (hunkIdx : Nat)
    (status : HunkStatus) (lines : List String) : ResMap :=
  match mapGet st filePath with
  | none => st
  | some fileRes =>
    let hunks := fileRes.hunkResolutions.set hunkIdx
      { status := status, resolvedLines := lines }
    let allResolved := hunks.all (fun h => h.status ≠ .pending)
    mapSet st filePath
      { status := if allResolved then .resolved else .pending,
        hunkResolutions := hunks }

/-- The `acceptBase` operation. -/
def acceptBase (st : ResMap) (filePath : String) (hunkIdx : Nat)
    (baseLines : List String) : ResMap :=
  updateHunkResolution st filePath hunkIdx .acceptedBase baseLines

/-- The `acceptHead` operation. -/
def acceptHead (st : ResMap) (filePath : String) (hunkIdx : Nat)
    (headLines : List String) : ResMap :=
  updateHunkResolution st filePath hunkIdx .acceptedHead headLines

/-- The `acceptBoth` operation: base's lines followed by head's lines. -/
def acceptBoth (st : ResMap) (filePath : String) (hunkIdx : Nat)
    (baseLines headLines : List String) : ResMap :=
  updateHunkResolution st filePath hunkIdx .acceptedBoth (baseLines ++ headLines)

/-- The `onCustom` handler: a caller-supplied replacement. -/
def setCustom (st : ResMap) (filePath : String) (hunkIdx : Nat)
    (lines : List String) : ResMap :=
  updateHunkResolution st filePath hunkIdx .custom lines

/-- The `forEach` body of `acceptAllBase`, iterating over the file's hunks
with their indices (`idx` carried explicitly): every conflict hunk gets
`acceptBase` applied with its `baseLines`. -/
def acceptAllBaseAux (filePath : String) :
    Nat → List MergeHunk → ResMap → ResMap
  | _, [], st => st
  | idx, h :: rest, st =>
    match h with
    | .conflict bl _ =>
      acceptAllBaseAux filePath (idx + 1) rest (acceptBase st filePath idx bl)
    | .clean _ => acceptAllBaseAux filePath (idx + 1) rest st

/-- The `acceptAllBase` operation: find the file in the session data and accept base on
each of its conflict hunks in order. -/
def acceptAllBase (files : List ConflictFileData) (st : ResMap)
    (filePath : String) : ResMap :=
  match files.find? (fun f => f.path = filePath) with
  | none => st
  | some file => acceptAllBaseAux filePath 0 file.hunks st

/-- The `forEach` body of `acceptAllHead`. -/
def acceptAllHeadAux (filePath : String) :
    Nat → List MergeHunk → ResMap → ResMap
  | _, [], st => st
  | idx, h :: rest, st =>
    match h with
    | .conflict _ hl =>
      acceptAllHeadAux filePath (idx + 1) rest (acceptHead st filePath idx hl)
    | .clean _ => acceptAllHeadAux filePath (idx + 1) rest st

/-- The `acceptAllHead` operation. -/
def acceptAllHead (files : List ConflictFileData) (st : ResMap)
    (filePath : String) : ResMap :=
  match files.find? (fun f => f.path = filePath) with
  | none => st
  | some file => acceptAllHeadAux filePath 0 file.hunks st

/-- One interactive resolution mutation of the tracker. -/
inductive TrackerOp where
  | opAcceptBase (filePath : String) (hunkIdx : Nat) (baseLines : List String)
  | opAcceptHead (filePath : String) (hunkIdx : Nat) (headLines : List String)
  | opAcceptBoth (filePath : String) (hunkIdx : Nat)
      (baseLines headLines : List String)
  | opSetCustom (filePath : String) (hunkIdx : Nat) (lines : List String)
  | opAcceptAllBase (filePath : String)
  | opAcceptAllHead (filePath : String)

/-- Applying one mutation to the tracker map. -/
def applyOp (files : List ConflictFileData) (st : ResMap) : TrackerOp → ResMap
  | .opAcceptBase p i bl => acceptBase st p i bl
  | .opAcceptHead p i hl => acceptHead st p i hl
  | .opAcceptBoth p i bl hl => acceptBoth st p i bl hl
  | .opSetCustom p i l => setCustom st p i l
  | .opAcceptAllBase p => acceptAllBase files st p
  | .opAcceptAllHead p => acceptAllHead files st p

/-- Tracker states reachable from a fetched session by the interactive
resolution operations. -/
inductive Reachable (files : List ConflictFileData) : ResMap → Prop where
  | init : Reachable files (initResolutions files)
  | step (st : ResMap) (op : TrackerOp) :
      Reachable files st → Reachable files (applyOp files st op)

/-- The conflict files of the view: files not auto-resolved. -/
def conflictFiles (files : List ConflictFileData) : List ConflictFileData :=
  files.filter (fun f => !f.autoResolved)

/-- The `allResolved` predicate: there is at least one conflict file and every conflict
file's tracked status is `resolved`. -/
def allResolved (files : List ConflictFileData) (st : ResMap) : Prop :=
  0 < (conflictFiles files).length ∧
    ((conflictFiles files).filter
      (fun f => (mapGet st f.path).map FileResolution.status
        = some .resolved)).length = (conflictFiles files).length

instance (files : List ConflictFileData) (st : ResMap) :
    Decidable (allResolved files st) := by
  unfold allResolved; infer_instance

/-- Commit-time content of one file: every hunk resolution's lines pushed
in order, then joined with a newline. -/
def fileCommitContent (fr : FileResolution) : String :=
  joinNl (fr.hunkResolutions.foldl (fun acc hr => acc ++ hr.resolvedLines) [])

/-- The `handleCommit` handler: `none` when the guard `!data || !allResolved` returns
early (no remote call is made); otherwise the `resolvedFiles` payload handed
to `commitMergeConflictResolution`, skipping files without a tracked
resolution exactly as the `continue` does. -/
def handleCommit (files : List ConflictFileData) (st : ResMap) :
    Option (List (String × String)) :=
  if allResolved files st then
    some (files.filterMap (fun f =>
      (mapGet st f.path).map (fun fr => (f.path, fileCommitContent fr))))
  else
    none

/-- An error thrown by the remote client: a message and, when present, an
HTTP status. -/
structure ThrownError where
  message : String
  status : Option Nat
deriving DecidableEq, Repr

/-- What `octokit.repos.getContent` resolves to for one path and ref:
a directory listing, a non-file object, or a file with (decoded) text. -/
inductive GitHubContent where
  | dir
  | nonFile
  | file (content : String)
deriving DecidableEq, Repr

/-- The `fetchContent` helper (route.ts, lines 62-81): any thrown error, a directory
answer or a non-file answer is `null`; a file answer yields its text. -/
def fetchContent (fetched : Except ThrownError GitHubContent) : Option String :=
  match fetched with
  | .error _ => none
  | .ok .dir => none
  | .ok .nonFile => none
  | .ok (.file c) => some c

/-- The successful result of `compareCommits`. -/
structure Comparison where
  mergeBaseSha : String
  baseSha : String
  commitShas : List String
  files : List String
deriving DecidableEq, Repr

/-- The JSON body and HTTP status of an error response. -/
structure ErrorResponse where
  message : String
  status : Nat
deriving DecidableEq, Repr

/-- The JSON body of a successful response. -/
structure MergeConflictsResponse where
  mergeBaseSha : String
  baseBranch : String
  headBranch : String
  files : List ConflictFileData
deriving DecidableEq, Repr

/-- The constant `MAX_FILES` (route.ts, line 6). -/
def MAX_FILES : Nat := 30

/-- The catch block of the route: the response status is the thrown error's
numeric `status` when it has one, else 500; a 404 gets a dedicated message,
otherwise the error's message (or the fallback when it is empty). -/
def routeError (e : ThrownError) : ErrorResponse :=
  let msg := if e.message = "" then "Failed to compute merge conflicts" else e.message
  let status := e.status.getD 500
  if status = 404 then
    { message := "Could not compare branches. The branch may not exist or you may not have access. If this is a fork PR, ensure the head branch is accessible.",
      status := 404 }
  else
    { message := msg, status := status }

/-- The happy-path and error-path body of the `GET` handler after parameter
and authentication checks (route.ts, lines 32–220).  The remote is abstracted
by two oracles: `compare` is the one `compareCommits` call, and `getContent`
resolves an (owner, path, ref) triple.  Per-file fetch failures are absorbed
by `fetchContent`; only the comparison itself can fail the route. -/
def fetchMergeConflicts
    (merge : List String → List String → List String → MergeResult)
    (compare : Except ThrownError Comparison)
    (getContent : String → String → String → Except ThrownError GitHubContent)
    (owner base head : String) :
    Except ErrorResponse MergeConflictsResponse :=
  match compare with
  | .error e => .error (routeError e)
  | .ok comparison =>
    let mergeBaseSha := comparison.mergeBaseSha
    let baseSha := comparison.baseSha
    let headSha := (comparison.commitShas.getLast?).getD mergeBaseSha
    let headOwner := if head.contains ':' then (head.splitOn ":").headD owner else owner
    let diffFiles := comparison.files.take MAX_FILES
    if diffFiles.length = 0 then
      .ok { mergeBaseSha := mergeBaseSha, baseBranch := base, headBranch := head,
            files := [] }
    else
      .ok { mergeBaseSha := mergeBaseSha, baseBranch := base, headBranch := head,
            files := diffFiles.map (fun filePath =>
              classifyFile merge filePath
                (fetchContent (getContent owner filePath mergeBaseSha))
                (fetchContent (getContent owner filePath baseSha))
                (fetchContent (getContent headOwner filePath headSha))) }

/-- Whether a hunk is the clean variant. -/
def MergeHunk.isClean : MergeHunk → Bool
  | .clean _ => true
  | .conflict _ _ => false

/-- Well-formedness of one fetched file, the `ConflictFileReport` invariant
of the specification: `autoResolved` holds exactly when every hunk is clean,
so an auto-resolved file has only clean hunks and a non-auto-resolved file
has at least one conflict hunk. -/
def WFFile (f : ConflictFileData) : Bool :=
  if f.autoResolved then f.hunks.all (fun h => h.isClean)
  else f.hunks.any (fun h => !h.isClean)

/-- The tracked resolution of one hunk of one file, when present. -/
def getRes (st : ResMap) (p : String) (i : Nat) : Option HunkResolution :=
  (mapGet st p).bind (fun fr => fr.hunkResolutions[i]?)

/-- The hunk at position `i` of file `p` is tracked and not pending. -/
def hunkNonPending (st : ResMap) (p : String) (i : Nat) : Prop :=
  ∃ fr r, mapGet st p = some fr ∧ fr.hunkResolutions[i]? = some r ∧
    r.status ≠ .pending

/-- File-level aggregation invariant: an auto-resolved entry has no pending
hunk resolution, and any other entry is `resolved` exactly when none of its
hunk resolutions is pending. -/
def fileInv (fr : FileResolution) : Prop :=
  (fr.status = .autoResolved → ∀ r ∈ fr.hunkResolutions, r.status ≠ .pending) ∧
  (fr.status ≠ .autoResolved →
    (fr.status = .resolved ↔ ∀ r ∈ fr.hunkResolutions, r.status ≠ .pending))

/-- The aggregation invariant over every tracked file of a state. -/
def stateInv (st : ResMap) : Prop :=
  ∀ p fr, mapGet st p = some fr → fileInv fr

set_option linter.unreachableTactic false in
set_option linter.unusedTactic false in
/-- C1: For every changed file, the Orchestrator classifies before invoking
the merge engine, in this order: only head content → one Clean hunk of the
head content, auto-resolved; only base content → the same with base; both
base and head absent → zero hunks, auto-resolved; exactly one side differing
from the ancestor → one Clean hunk adopting that side; neither differing →
one Clean hunk adopting the ancestor; and only when both sides differ is the
merge engine called, with `autoResolved` the negation of its
`hasConflicts`. -/
theorem classifyFile_eq_classifySpec
    (merge : List String → List String → List String → MergeResult)
    (path : String) (a b h : Option String) :
    classifyFile merge path a b h = classifySpec merge path a b h := by
  unfold classifyFile classifySpec
  rcases a with _ | ac <;> rcases b with _ | bc <;> rcases h with _ | hc <;>
    simp only [ne_eq, reduceCtorEq, not_false_eq_true, not_true_eq_false,
      and_true, and_false, true_and, false_and, not_not, Option.getD_some,
      Option.getD_none, if_true, if_false, Option.some.injEq] <;>
    try (split_ifs <;> simp_all <;> tauto)

theorem splitNlChars_ne_nil (s : List Char) : splitNlChars s ≠ [] := by
  induction s with
  | nil => simp [splitNlChars]
  | cons c rest ih =>
    unfold splitNlChars
    cases hsk : splitNlChars rest with
    | nil => simp
    | cons cur others => dsimp only; split_ifs <;> simp

theorem joinNlChars_cons (l l2 : List Char) (ls : List (List Char)) :
    joinNlChars (l :: l2 :: ls) = l ++ '\n' :: joinNlChars (l2 :: ls) := rfl

theorem joinNlChars_splitNlChars (s : List Char) :
    joinNlChars (splitNlChars s) = s := by
  induction s with
  | nil => rfl
  | cons c rest ih =>
    unfold splitNlChars
    cases hsk : splitNlChars rest with
    | nil => exact absurd hsk (splitNlChars_ne_nil rest)
    | cons cur others =>
      rw [hsk] at ih
      by_cases hc : c = '\n'
      · subst hc
        simp [joinNlChars_cons, ih]
      · simp only [if_neg hc]
        cases others with
        | nil =>
          simp only [joinNlChars] at ih ⊢
          rw [ih]
        | cons o os =>
          rw [joinNlChars_cons]
          rw [joinNlChars_cons] at ih
          simp [← ih]

theorem joinNl_splitOnNl (s : String) : joinNl (splitOnNl s) = s := by
  unfold joinNl splitOnNl
  rw [List.map_map]
  have hcomp : (String.data ∘ fun cs => String.mk cs) = id := rfl
  rw [hcomp, List.map_id, joinNlChars_splitNlChars]

/-- C8: splitting strictly on a newline and rejoining with a newline is the
identity on every text (a trailing newline becomes a trailing empty element
and is restored on join); consequently, for a file that is auto-resolved as
a single Clean hunk adopting one side's content — in particular the
only-head and only-base classifications of the Orchestrator — the content
assembled at commit time (all hunk resolutions' lines joined with a
newline) is bit-exactly that side's fetched content. -/
theorem split_join_bit_exact :
    (∀ s : String, joinNl (splitOnNl s) = s) ∧
    (∀ (f : ConflictFileData) (c : String), f.autoResolved = true →
      f.hunks = [.clean (splitOnNl c)] →
      fileCommitContent (initFileResolution f) = c) ∧
    (∀ (merge : List String → List String → List String → MergeResult)
      (p hc : String),
      fileCommitContent
        (initFileResolution (classifyFile merge p none none (some hc))) = hc) ∧
    (∀ (merge : List String → List String → List String → MergeResult)
      (p bc : String),
      fileCommitContent
        (initFileResolution (classifyFile merge p none (some bc) none)) = bc) := by
  have hassemble : ∀ (f : ConflictFileData) (c : String), f.autoResolved = true →
      f.hunks = [.clean (splitOnNl c)] →
      fileCommitContent (initFileResolution f) = c := by
    intro f c hauto hhunks
    simp [initFileResolution, hauto, hhunks, fileCommitContent, joinNl_splitOnNl]
  refine ⟨joinNl_splitOnNl, hassemble, ?_, ?_⟩
  · intro merge p hc
    exact hassemble _ hc rfl rfl
  · intro merge p bc
    exact hassemble _ bc rfl rfl

/-- Witness for C8 at a concrete file: a single clean hunk holding the split
of a text with a trailing newline assembles back to exactly that text. -/
theorem split_join_bit_exact_witness :
    fileCommitContent
      (initFileResolution
        { path := "a.txt", hunks := [.clean (splitOnNl "x\ny\n")],
          hasConflicts := false, autoResolved := true }) = "x\ny\n" :=
  split_join_bit_exact.2.1
    { path := "a.txt", hunks := [.clean (splitOnNl "x\ny\n")],
      hasConflicts := false, autoResolved := true } "x\ny\n" rfl rfl

theorem mapGet_mapSet_self (m : ResMap) (k : String) (v : FileResolution) :
    mapGet (mapSet m k v) k = some v := by
  induction m with
  | nil => simp [mapSet, mapGet]
  | cons e rest ih =>
    unfold mapSet
    by_cases h : e.1 = k
    · simp [mapGet, h]
    · simp only [if_neg h]
      unfold mapGet
      simp [h, ih]

theorem mapGet_mapSet_ne (m : ResMap) (k k' : String) (v : FileResolution)
    (h : k ≠ k') : mapGet (mapSet m k v) k' = mapGet m k' := by
  induction m with
  | nil => simp [mapSet, mapGet, h]
  | cons e rest ih =>
    unfold mapSet
    by_cases he : e.1 = k
    · unfold mapGet
      simp [he, h]
    · simp only [if_neg he]
      unfold mapGet
      by_cases he' : e.1 = k' <;> simp [he', ih]

theorem updateHunkResolution_get_self (st : ResMap) (p : String) (i : Nat)
    (s : HunkStatus) (l : List String) (fr : FileResolution)
    (h : mapGet st p = some fr) :
    mapGet (updateHunkResolution st p i s l) p =
      some { status :=
               if (fr.hunkResolutions.set i
                     { status := s, resolvedLines := l }).all
                   (fun hr => hr.status ≠ .pending)
               then .resolved else .pending,
             hunkResolutions :=
               fr.hunkResolutions.set i { status := s, resolvedLines := l } } := by
  unfold updateHunkResolution
  rw [h]
  exact mapGet_mapSet_self st p _

theorem updateHunkResolution_get_ne (st : ResMap) (p p' : String) (i : Nat)
    (s : HunkStatus) (l : List String) (h : p ≠ p') :
    mapGet (updateHunkResolution st p i s l) p' = mapGet st p' := by
  unfold updateHunkResolution
  cases hg : mapGet st p with
  | none => rfl
  | some fr => exact mapGet_mapSet_ne st p p' _ h

theorem updateHunkResolution_preserves_nonPending (st : ResMap)
    (p0 : String) (i0 : Nat) (s0 : HunkStatus) (l0 : List String)
    (hs0 : s0 ≠ .pending) (p : String) (i : Nat)
    (hnp : hunkNonPending st p i) :
    hunkNonPending (updateHunkResolution st p0 i0 s0 l0) p i := by
  obtain ⟨fr, r, hget, hr, hrs⟩ := hnp
  by_cases hpp : p0 = p
  · subst hpp
    have hself := updateHunkResolution_get_self st p0 i0 s0 l0 fr hget
    by_cases hii : i0 = i
    · subst hii
      obtain ⟨hlt, -⟩ := List.getElem?_eq_some_iff.mp hr
      exact ⟨_, { status := s0, resolvedLines := l0 }, hself,
        List.getElem?_set_self hlt, hs0⟩
    · exact ⟨_, r, hself, by rw [List.getElem?_set_ne hii]; exact hr, hrs⟩
  · exact ⟨fr, r,
      by rw [updateHunkResolution_get_ne st p0 p i0 s0 l0 hpp]; exact hget,
      hr, hrs⟩

theorem acceptAllBaseAux_preserves_nonPending (filePath : String)
    (hunks : List MergeHunk) : ∀ (k : Nat) (st : ResMap) (p : String) (i : Nat),
    hunkNonPending st p i →
    hunkNonPending (acceptAllBaseAux filePath k hunks st) p i := by
  induction hunks with
  | nil => intro k st p i h; exact h
  | cons h t ih =>
    intro k st p i hnp
    cases h with
    | clean rl => exact ih (k + 1) st p i hnp
    | conflict bl hl =>
      exact ih (k + 1) _ p i
        (updateHunkResolution_preserves_nonPending st filePath k .acceptedBase bl
          (by decide) p i hnp)

theorem acceptAllHeadAux_preserves_nonPending (filePath : String)
    (hunks : List MergeHunk) : ∀ (k : Nat) (st : ResMap) (p : String) (i : Nat),
    hunkNonPending st p i →
    hunkNonPending (acceptAllHeadAux filePath k hunks st) p i := by
  induction hunks with
  | nil => intro k st p i h; exact h
  | cons h t ih =>
    intro k st p i hnp
    cases h with
    | clean rl => exact ih (k + 1) st p i hnp
    | conflict bl hl =>
      exact ih (k + 1) _ p i
        (updateHunkResolution_preserves_nonPending st filePath k .acceptedHead hl
          (by decide) p i hnp)

theorem getRes_updateHunkResolution_self (st : ResMap) (p : String) (i : Nat)
    (s : HunkStatus) (l : List String) (fr : FileResolution)
    (hget : mapGet st p = some fr) (hlt : i < fr.hunkResolutions.length) :
    getRes (updateHunkResolution st p i s l) p i =
      some { status := s, resolvedLines := l } := by
  unfold getRes
  rw [updateHunkResolution_get_self st p i s l fr hget]
  simp [List.getElem?_set_self hlt]

/-- C5: the resolution operations are deterministic in the hunk and their
arguments — `acceptBase` stores exactly the base lines with status
accepted-base, `acceptHead` the head lines, `acceptBoth` the concatenation
base ++ head, `setCustom` the caller-supplied lines — and no operation ever
returns a hunk resolution to `pending`: a non-pending hunk stays non-pending
after any further operation. -/
theorem resolution_ops_deterministic :
    (∀ (st : ResMap) (p : String) (i : Nat) (fr : FileResolution)
        (bl hl lines : List String),
        mapGet st p = some fr → i < fr.hunkResolutions.length →
        getRes (acceptBase st p i bl) p i =
          some { status := .acceptedBase, resolvedLines := bl } ∧
        getRes (acceptHead st p i hl) p i =
          some { status := .acceptedHead, resolvedLines := hl } ∧
        getRes (acceptBoth st p i bl hl) p i =
          some { status := .acceptedBoth, resolvedLines := bl ++ hl } ∧
        getRes (setCustom st p i lines) p i =
          some { status := .custom, resolvedLines := lines }) ∧
    (∀ (files : List ConflictFileData) (st : ResMap) (op : TrackerOp)
        (p : String) (i : Nat),
        hunkNonPending st p i → hunkNonPending (applyOp files st op) p i) := by
  constructor
  · intro st p i fr bl hl lines hget hlt
    exact ⟨getRes_updateHunkResolution_self st p i _ _ fr hget hlt,
      getRes_updateHunkResolution_self st p i _ _ fr hget hlt,
      getRes_updateHunkResolution_self st p i _ _ fr hget hlt,
      getRes_updateHunkResolution_self st p i _ _ fr hget hlt⟩
  · intro files st op p i hnp
    cases op with
    | opAcceptBase p0 i0 bl =>
      exact updateHunkResolution_preserves_nonPending st p0 i0 _ bl
        (by decide) p i hnp
    | opAcceptHead p0 i0 hl =>
      exact updateHunkResolution_preserves_nonPending st p0 i0 _ hl
        (by decide) p i hnp
    | opAcceptBoth p0 i0 bl hl =>
      exact updateHunkResolution_preserves_nonPending st p0 i0 _ (bl ++ hl)
        (by decide) p i hnp
    | opSetCustom p0 i0 l =>
      exact updateHunkResolution_preserves_nonPending st p0 i0 _ l
        (by decide) p i hnp
    | opAcceptAllBase p0 =>
      show hunkNonPending (acceptAllBase files st p0) p i
      unfold acceptAllBase
      cases hfind : files.find? (fun f => f.path = p0) with
      | none => exact hnp
      | some file =>
        exact acceptAllBaseAux_preserves_nonPending p0 file.hunks 0 st p i hnp
    | opAcceptAllHead p0 =>
      show hunkNonPending (acceptAllHead files st p0) p i
      unfold acceptAllHead
      cases hfind : files.find? (fun f => f.path = p0) with
      | none => exact hnp
      | some file =>
        exact acceptAllHeadAux_preserves_nonPending p0 file.hunks 0 st p i hnp

/-- Witness for C5 at a concrete state: accepting base on the only hunk of a
single-conflict file stores the base lines, and a state whose hunk is
already non-pending stays non-pending after a further `acceptAllHead`. -/
theorem resolution_ops_deterministic_witness :
    (getRes
      (acceptBase
        [("f", { status := .pending, hunkResolutions := [{ status := .pending, resolvedLines := [] }] })]
        "f" 0 ["B"]) "f" 0 =
      some { status := .acceptedBase, resolvedLines := ["B"] }) ∧
    hunkNonPending
      (applyOp
        [{ path := "f", hunks := [.conflict ["B"] ["H"]], hasConflicts := true, autoResolved := false }]
        [("f", { status := .resolved, hunkResolutions := [{ status := .custom, resolvedLines := ["Z"] }] })]
        (.opAcceptAllHead "f")) "f" 0 := by
  constructor
  · exact (resolution_ops_deterministic.1
      [("f", { status := .pending, hunkResolutions := [{ status := .pending, resolvedLines := [] }] })]
      "f" 0
      { status := .pending, hunkResolutions := [{ status := .pending, resolvedLines := [] }] }
      ["B"] [] [] rfl (by decide)).1
  · exact resolution_ops_deterministic.2
      [{ path := "f", hunks := [.conflict ["B"] ["H"]], hasConflicts := true, autoResolved := false }]
      [("f", { status := .resolved, hunkResolutions := [{ status := .custom, resolvedLines := ["Z"] }] })]
      (.opAcceptAllHead "f") "f" 0
      ⟨{ status := .resolved, hunkResolutions := [{ status := .custom, resolvedLines := ["Z"] }] },
        { status := .custom, resolvedLines := ["Z"] }, rfl, rfl, by decide⟩

theorem fileInv_recompute (hs : List HunkResolution) :
    fileInv { status := if hs.all (fun hr => hr.status ≠ .pending)
                then FileStatus.resolved else FileStatus.pending,
              hunkResolutions := hs } := by
  unfold fileInv
  by_cases hall : hs.all (fun hr => hr.status ≠ .pending)
  · have hforall : ∀ r ∈ hs, r.status ≠ .pending := fun r hr => by
      simpa using List.all_eq_true.mp hall r hr
    simp only [if_pos hall]
    exact ⟨fun _ => hforall, fun _ => ⟨fun _ => hforall, fun _ => trivial⟩⟩
  · have hnot : ¬ ∀ r ∈ hs, r.status ≠ .pending := by
      intro hforall
      exact hall (List.all_eq_true.mpr (fun r hr => by simpa using hforall r hr))
    simp only [if_neg hall]
    simp [hnot]

theorem updateHunkResolution_preserves_stateInv (st : ResMap) (p0 : String)
    (i0 : Nat) (s0 : HunkStatus) (l0 : List String) (hinv : stateInv st) :
    stateInv (updateHunkResolution st p0 i0 s0 l0) := by
  intro p fr hget
  by_cases hpp : p0 = p
  · subst hpp
    cases hg0 : mapGet st p0 with
    | none =>
      unfold updateHunkResolution at hget
      rw [hg0] at hget
      exact hinv _ _ hget
    | some fr0 =>
      rw [updateHunkResolution_get_self st p0 i0 s0 l0 fr0 hg0] at hget
      injection hget with h
      subst h
      exact fileInv_recompute _
  · rw [updateHunkResolution_get_ne st p0 p i0 s0 l0 hpp] at hget
    exact hinv _ _ hget

theorem acceptAllBaseAux_preserves_stateInv (filePath : String)
    (hunks : List MergeHunk) : ∀ (k : Nat) (st : ResMap),
    stateInv st → stateInv (acceptAllBaseAux filePath k hunks st) := by
  induction hunks with
  | nil => intro k st h; exact h
  | cons h t ih =>
    intro k st hinv
    cases h with
    | clean rl => exact ih (k + 1) st hinv
    | conflict bl hl =>
      exact ih (k + 1) _
        (updateHunkResolution_preserves_stateInv st filePath k .acceptedBase bl hinv)

theorem acceptAllHeadAux_preserves_stateInv (filePath : String)
    (hunks : List MergeHunk) : ∀ (k : Nat) (st : ResMap),
    stateInv st → stateInv (acceptAllHeadAux filePath k hunks st) := by
  induction hunks with
  | nil => intro k st h; exact h
  | cons h t ih =>
    intro k st hinv
    cases h with
    | clean rl => exact ih (k + 1) st hinv
    | conflict bl hl =>
      exact ih (k + 1) _
        (updateHunkResolution_preserves_stateInv st filePath k .acceptedHead hl hinv)

theorem applyOp_preserves_stateInv (files : List ConflictFileData)
    (st : ResMap) (op : TrackerOp) (hinv : stateInv st) :
    stateInv (applyOp files st op) := by
  cases op with
  | opAcceptBase p0 i0 bl =>
    exact updateHunkResolution_preserves_stateInv st p0 i0 _ bl hinv
  | opAcceptHead p0 i0 hl =>
    exact updateHunkResolution_preserves_stateInv st p0 i0 _ hl hinv
  | opAcceptBoth p0 i0 bl hl =>
    exact updateHunkResolution_preserves_stateInv st p0 i0 _ (bl ++ hl) hinv
  | opSetCustom p0 i0 l =>
    exact updateHunkResolution_preserves_stateInv st p0 i0 _ l hinv
  | opAcceptAllBase p0 =>
    show stateInv (acceptAllBase files st p0)
    unfold acceptAllBase
    cases hfind : files.find? (fun f => f.path = p0) with
    | none => exact hinv
    | some file => exact acceptAllBaseAux_preserves_stateInv p0 file.hunks 0 st hinv
  | opAcceptAllHead p0 =>
    show stateInv (acceptAllHead files st p0)
    unfold acceptAllHead
    cases hfind : files.find? (fun f => f.path = p0) with
    | none => exact hinv
    | some file => exact acceptAllHeadAux_preserves_stateInv p0 file.hunks 0 st hinv

theorem fileInv_initFileResolution (f : ConflictFileData)
    (hwf : WFFile f = true) : fileInv (initFileResolution f) := by
  unfold WFFile at hwf
  unfold initFileResolution fileInv
  by_cases hauto : f.autoResolved = true
  · rw [if_pos hauto] at hwf
    simp only [hauto, if_true]
    constructor
    · intro _ r hr
      obtain ⟨h, hmem, hmap⟩ := List.mem_map.mp hr
      cases h with
      | clean rl =>
        rw [← hmap]
        simp
      | conflict bl hl =>
        have := List.all_eq_true.mp hwf _ hmem
        simp [MergeHunk.isClean] at this
    · intro habs
      exact absurd rfl habs
  · rw [if_neg hauto] at hwf
    have hauto' : f.autoResolved = false := by
      cases hb : f.autoResolved
      · rfl
      · exact absurd hb hauto
    simp only [hauto', if_false]
    constructor
    · intro habs
      simp at habs
    · intro _
      constructor
      · intro habs
        simp at habs
      · intro hforall
        obtain ⟨h, hmem, hbad⟩ := List.any_eq_true.mp hwf
        cases h with
        | clean rl => simp [MergeHunk.isClean] at hbad
        | conflict bl hl =>
          have hin : ({ status := .pending, resolvedLines := [] } : HunkResolution)
              ∈ f.hunks.map (fun h =>
                match h with
                | .clean rl => { status := HunkStatus.acceptedBase, resolvedLines := rl }
                | .conflict _ _ => { status := HunkStatus.pending, resolvedLines := [] }) :=
            List.mem_map.mpr ⟨.conflict bl hl, hmem, rfl⟩
          exact absurd rfl (hforall _ hin)

theorem mapSet_preserves_stateInv (m : ResMap) (k : String) (v : FileResolution)
    (hv : fileInv v) (hinv : stateInv m) : stateInv (mapSet m k v) := by
  intro p fr hget
  by_cases hkp : k = p
  · subst hkp
    rw [mapGet_mapSet_self] at hget
    injection hget with h
    subst h
    exact hv
  · rw [mapGet_mapSet_ne _ _ _ _ hkp] at hget
    exact hinv _ _ hget

theorem foldl_init_stateInv : ∀ (files : List ConflictFileData) (m : ResMap),
    (∀ f ∈ files, WFFile f = true) → stateInv m →
    stateInv (files.foldl (fun m f => mapSet m f.path (initFileResolution f)) m) := by
  intro files
  induction files with
  | nil => intro m _ hm; exact hm
  | cons f t ih =>
    intro m hwf hm
    simp only [List.foldl_cons]
    exact ih _ (fun g hg => hwf g (List.mem_cons_of_mem f hg))
      (mapSet_preserves_stateInv m f.path _
        (fileInv_initFileResolution f (hwf f (List.mem_cons_self f t))) hm)

/-- C3: in every reachable tracker state — the initial state built from a
fetched session whose files satisfy the report invariant, and any state
produced by the resolution operations — every tracked file is `resolved`
exactly when none of its hunk resolutions is `pending`, with auto-resolved
files carrying status `auto-resolved` and holding no pending hunk. -/
theorem reachable_stateInv (files : List ConflictFileData)
    (hwf : ∀ f ∈ files, WFFile f = true) (st : ResMap)
    (hr : Reachable files st) : stateInv st := by
  induction hr with
  | init =>
    unfold initResolutions
    exact foldl_init_stateInv files [] hwf (fun p fr h => by simp [mapGet] at h)
  | step st op hst ih => exact applyOp_preserves_stateInv files st op ih

/-- Witness for C3: the session with one conflict file, after accepting base
on its only hunk, satisfies the aggregation invariant. -/
theorem reachable_stateInv_witness :
    stateInv
      (applyOp
        [{ path := "f", hunks := [.conflict ["B"] ["H"]], hasConflicts := true, autoResolved := false }]
        (initResolutions
          [{ path := "f", hunks := [.conflict ["B"] ["H"]], hasConflicts := true, autoResolved := false }])
        (.opAcceptBase "f" 0 ["B"])) :=
  reachable_stateInv
    [{ path := "f", hunks := [.conflict ["B"] ["H"]], hasConflicts := true, autoResolved := false }]
    (by decide) _
    (Reachable.step
      (initResolutions
        [{ path := "f", hunks := [.conflict ["B"] ["H"]], hasConflicts := true, autoResolved := false }])
      (.opAcceptBase "f" 0 ["B"]) Reachable.init)

theorem acceptAllBaseAux_effect (filePath : String) (hunks : List MergeHunk) :
    ∀ (k : Nat) (st : ResMap) (fr : FileResolution),
    mapGet st filePath = some fr →
    k + hunks.length ≤ fr.hunkResolutions.length →
    ∃ fr', mapGet (acceptAllBaseAux filePath k hunks st) filePath = some fr' ∧
      fr'.hunkResolutions.length = fr.hunkResolutions.length ∧
      (∀ j bl hl, hunks[j]? = some (.conflict bl hl) →
        fr'.hunkResolutions[k + j]? =
          some { status := HunkStatus.acceptedBase, resolvedLines := bl }) ∧
      (∀ j rl, hunks[j]? = some (.clean rl) →
        fr'.hunkResolutions[k + j]? = fr.hunkResolutions[k + j]?) ∧
      (∀ i, i < k → fr'.hunkResolutions[i]? = fr.hunkResolutions[i]?) := by
  induction hunks with
  | nil =>
    intro k st fr hget _
    refine ⟨fr, hget, rfl, ?_, ?_, fun i _ => rfl⟩
    · intro j bl hl hj
      simp at hj
    · intro j rl hj
      simp at hj
  | cons h t ih =>
    intro k st fr hget hlen
    cases h with
    | clean rl0 =>
      obtain ⟨fr', hget', hlen', hconf', hclean', hbelow'⟩ :=
        ih (k + 1) st fr hget (by simp at hlen; omega)
      refine ⟨fr', hget', hlen', ?_, ?_, ?_⟩
      · intro j bl hl hj
        cases j with
        | zero => simp at hj
        | succ j' =>
          have harith : k + (j' + 1) = (k + 1) + j' := by omega
          rw [harith]
          exact hconf' j' bl hl (by simpa using hj)
      · intro j rl hj
        cases j with
        | zero =>
          have harith : k + 0 = k := by omega
          rw [harith]
          exact hbelow' k (Nat.lt_succ_self k)
        | succ j' =>
          have harith : k + (j' + 1) = (k + 1) + j' := by omega
          rw [harith]
          exact hclean' j' rl (by simpa using hj)
      · intro i hi
        exact hbelow' i (Nat.lt_succ_of_lt hi)
    | conflict bl0 hl0 =>
      have hklt : k < fr.hunkResolutions.length := by simp at hlen; omega
      have hget1 := updateHunkResolution_get_self st filePath k .acceptedBase bl0 fr hget
      obtain ⟨fr', hget', hlen', hconf', hclean', hbelow'⟩ :=
        ih (k + 1) _ _ hget1 (by simp [List.length_set]; simp at hlen; omega)
      refine ⟨fr', hget', by simpa [List.length_set] using hlen', ?_, ?_, ?_⟩
      · intro j bl hl hj
        cases j with
        | zero =>
          simp only [List.getElem?_cons_zero, Option.some.injEq,
            MergeHunk.conflict.injEq] at hj
          have harith : k + 0 = k := by omega
          rw [harith]
          have hfrm := hbelow' k (Nat.lt_succ_self k)
          rw [hfrm]
          simp only [List.getElem?_set_self hklt]
          rw [← hj.1]
        | succ j' =>
          have harith : k + (j' + 1) = (k + 1) + j' := by omega
          rw [harith]
          exact hconf' j' bl hl (by simpa using hj)
      · intro j rl hj
        cases j with
        | zero => simp at hj
        | succ j' =>
          have harith : k + (j' + 1) = (k + 1) + j' := by omega
          rw [harith]
          rw [hclean' j' rl (by simpa using hj)]
          simp only
          exact List.getElem?_set_ne (by omega)
      · intro i hi
        rw [hbelow' i (Nat.lt_succ_of_lt hi)]
        simp only
        exact List.getElem?_set_ne (by omega)

theorem acceptAllBaseAux_get_ne (filePath p' : String) (h : filePath ≠ p')
    (hunks : List MergeHunk) : ∀ (k : Nat) (st : ResMap),
    mapGet (acceptAllBaseAux filePath k hunks st) p' = mapGet st p' := by
  induction hunks with
  | nil => intro k st; rfl
  | cons hk t ih =>
    intro k st
    cases hk with
    | clean rl => exact ih (k + 1) st
    | conflict bl hl =>
      show mapGet (acceptAllBaseAux filePath (k + 1) t
        (acceptBase st filePath k bl)) p' = mapGet st p'
      rw [ih (k + 1) _]
      exact updateHunkResolution_get_ne st filePath p' k _ bl h

theorem acceptAllHeadAux_effect (filePath : String) (hunks : List MergeHunk) :
    ∀ (k : Nat) (st : ResMap) (fr : FileResolution),
    mapGet st filePath = some fr →
    k + hunks.length ≤ fr.hunkResolutions.length →
    ∃ fr', mapGet (acceptAllHeadAux filePath k hunks st) filePath = some fr' ∧
      fr'.hunkResolutions.length = fr.hunkResolutions.length ∧
      (∀ j bl hl, hunks[j]? = some (.conflict bl hl) →
        fr'.hunkResolutions[k + j]? =
          some { status := HunkStatus.acceptedHead, resolvedLines := hl }) ∧
      (∀ j rl, hunks[j]? = some (.clean rl) →
        fr'.hunkResolutions[k + j]? = fr.hunkResolutions[k + j]?) ∧
      (∀ i, i < k → fr'.hunkResolutions[i]? = fr.hunkResolutions[i]?) := by
  induction hunks with
  | nil =>
    intro k st fr hget _
    refine ⟨fr, hget, rfl, ?_, ?_, fun i _ => rfl⟩
    · intro j bl hl hj
      simp at hj
    · intro j rl hj
      simp at hj
  | cons h t ih =>
    intro k st fr hget hlen
    cases h with
    | clean rl0 =>
      obtain ⟨fr', hget', hlen', hconf', hclean', hbelow'⟩ :=
        ih (k + 1) st fr hget (by simp at hlen; omega)
      refine ⟨fr', hget', hlen', ?_, ?_, ?_⟩
      · intro j bl hl hj
        cases j with
        | zero => simp at hj
        | succ j' =>
          have harith : k + (j' + 1) = (k + 1) + j' := by omega
          rw [harith]
          exact hconf' j' bl hl (by simpa using hj)
      · intro j rl hj
        cases j with
        | zero =>
          have harith : k + 0 = k := by omega
          rw [harith]
          exact hbelow' k (Nat.lt_succ_self k)
        | succ j' =>
          have harith : k + (j' + 1) = (k + 1) + j' := by omega
          rw [harith]
          exact hclean' j' rl (by simpa using hj)
      · intro i hi
        exact hbelow' i (Nat.lt_succ_of_lt hi)
    | conflict bl0 hl0 =>
      have hklt : k < fr.hunkResolutions.length := by simp at hlen; omega
      have hget1 := updateHunkResolution_get_self st filePath k .acceptedHead hl0 fr hget
      obtain ⟨fr', hget', hlen', hconf', hclean', hbelow'⟩ :=
        ih (k + 1) _ _ hget1 (by simp [List.length_set]; simp at hlen; omega)
      refine ⟨fr', hget', by simpa [List.length_set] using hlen', ?_, ?_, ?_⟩
      · intro j bl hl hj
        cases j with
        | zero =>
          simp only [List.getElem?_cons_zero, Option.some.injEq,
            MergeHunk.conflict.injEq] at hj
          have harith : k + 0 = k := by omega
          rw [harith]
          have hfrm := hbelow' k (Nat.lt_succ_self k)
          rw [hfrm]
          simp only [List.getElem?_set_self hklt]
          rw [← hj.2]
        | succ j' =>
          have harith : k + (j' + 1) = (k + 1) + j' := by omega
          rw [harith]
          exact hconf' j' bl hl (by simpa using hj)
      · intro j rl hj
        cases j with
        | zero => simp at hj
        | succ j' =>
          have harith : k + (j' + 1) = (k + 1) + j' := by omega
          rw [harith]
          rw [hclean' j' rl (by simpa using hj)]
          simp only
          exact List.getElem?_set_ne (by omega)
      · intro i hi
        rw [hbelow' i (Nat.lt_succ_of_lt hi)]
        simp only
        exact List.getElem?_set_ne (by omega)

theorem acceptAllHeadAux_get_ne (filePath p' : String) (h : filePath ≠ p')
    (hunks : List MergeHunk) : ∀ (k : Nat) (st : ResMap),
    mapGet (acceptAllHeadAux filePath k hunks st) p' = mapGet st p' := by
  induction hunks with
  | nil => intro k st; rfl
  | cons hk t ih =>
    intro k st
    cases hk with
    | clean rl => exact ih (k + 1) st
    | conflict bl hl =>
      show mapGet (acceptAllHeadAux filePath (k + 1) t
        (acceptHead st filePath k hl)) p' = mapGet st p'
      rw [ih (k + 1) _]
      exact updateHunkResolution_get_ne st filePath p' k _ hl h

/-- C2 counterexample: in a tracker state whose only conflict hunk is
already resolved as accepted-head with the head lines, `acceptAllBase`
overwrites it to accepted-base with the base lines — the already-resolved
hunk does not keep its prior status and lines, contradicting the claim. -/
theorem acceptAllBase_overwrites_resolved :
    mapGet
      (acceptAllBase
        [{ path := "f", hunks := [.conflict ["B"] ["H"]], hasConflicts := true, autoResolved := false }]
        [("f", { status := .resolved, hunkResolutions := [{ status := .acceptedHead, resolvedLines := ["H"] }] })]
        "f") "f" =
      some { status := .resolved, hunkResolutions := [{ status := .acceptedBase, resolvedLines := ["B"] }] } ∧
    ({ status := HunkStatus.acceptedBase, resolvedLines := ["B"] } : HunkResolution) ≠
      { status := .acceptedHead, resolvedLines := ["H"] } := by
  constructor
  · decide
  · decide

/-- C2 (amended): `acceptAllBase` (resp. `acceptAllHead`) sets the
resolution of every conflict hunk of the file — pending or already
resolved — to accepted-base with that hunk's base lines (accepted-head with
its head lines); resolutions at clean-hunk positions are unchanged, and
every other file's entry is unchanged. -/
theorem acceptAll_effect (files : List ConflictFileData) (st : ResMap)
    (filePath : String) (file : ConflictFileData) (fr : FileResolution)
    (hfind : files.find? (fun f => f.path = filePath) = some file)
    (hget : mapGet st filePath = some fr)
    (hlen : file.hunks.length ≤ fr.hunkResolutions.length) :
    (∀ j bl hl, file.hunks[j]? = some (.conflict bl hl) →
      getRes (acceptAllBase files st filePath) filePath j =
        some { status := .acceptedBase, resolvedLines := bl } ∧
      getRes (acceptAllHead files st filePath) filePath j =
        some { status := .acceptedHead, resolvedLines := hl }) ∧
    (∀ j rl, file.hunks[j]? = some (.clean rl) →
      getRes (acceptAllBase files st filePath) filePath j = getRes st filePath j ∧
      getRes (acceptAllHead files st filePath) filePath j = getRes st filePath j) ∧
    (∀ p', p' ≠ filePath →
      mapGet (acceptAllBase files st filePath) p' = mapGet st p' ∧
      mapGet (acceptAllHead files st filePath) p' = mapGet st p') := by
  obtain ⟨frb, hgetb, hlenb, hconfb, hcleanb, -⟩ :=
    acceptAllBaseAux_effect filePath file.hunks 0 st fr hget (by omega)
  obtain ⟨frh, hgeth, hlenh, hconfh, hcleanh, -⟩ :=
    acceptAllHeadAux_effect filePath file.hunks 0 st fr hget (by omega)
  have hb : acceptAllBase files st filePath =
      acceptAllBaseAux filePath 0 file.hunks st := by
    unfold acceptAllBase
    rw [hfind]
  have hh : acceptAllHead files st filePath =
      acceptAllHeadAux filePath 0 file.hunks st := by
    unfold acceptAllHead
    rw [hfind]
  refine ⟨?_, ?_, ?_⟩
  · intro j bl hl hj
    constructor
    · simp only [getRes, hb, hgetb, Option.some_bind]
      simpa using hconfb j bl hl hj
    · simp only [getRes, hh, hgeth, Option.some_bind]
      simpa using hconfh j bl hl hj
  · intro j rl hj
    constructor
    · simp only [getRes, hb, hgetb, hget, Option.some_bind]
      simpa using hcleanb j rl hj
    · simp only [getRes, hh, hgeth, hget, Option.some_bind]
      simpa using hcleanh j rl hj
  · intro p' hp'
    constructor
    · rw [hb]
      exact acceptAllBaseAux_get_ne filePath p' (fun he => hp' he.symm)
        file.hunks 0 st
    · rw [hh]
      exact acceptAllHeadAux_get_ne filePath p' (fun he => hp' he.symm)
        file.hunks 0 st

/-- Witness for the amended C2 on a file with one conflict hunk and one
clean hunk: both bulk operations store that conflict hunk's proper side. -/
theorem acceptAll_effect_witness :
    getRes
      (acceptAllBase
        [{ path := "f", hunks := [.conflict ["B"] ["H"], .clean ["c"]], hasConflicts := true, autoResolved := false }]
        [("f", { status := .pending, hunkResolutions := [{ status := .pending, resolvedLines := [] }, { status := .acceptedBase, resolvedLines := ["c"] }] })]
        "f") "f" 0 =
      some { status := .acceptedBase, resolvedLines := ["B"] } ∧
    getRes
      (acceptAllHead
        [{ path := "f", hunks := [.conflict ["B"] ["H"], .clean ["c"]], hasConflicts := true, autoResolved := false }]
        [("f", { status := .pending, hunkResolutions := [{ status := .pending, resolvedLines := [] }, { status := .acceptedBase, resolvedLines := ["c"] }] })]
        "f") "f" 0 =
      some { status := .acceptedHead, resolvedLines := ["H"] } :=
  (acceptAll_effect
    [{ path := "f", hunks := [.conflict ["B"] ["H"], .clean ["c"]], hasConflicts := true, autoResolved := false }]
    [("f", { status := .pending, hunkResolutions := [{ status := .pending, resolvedLines := [] }, { status := .acceptedBase, resolvedLines := ["c"] }] })]
    "f"
    { path := "f", hunks := [.conflict ["B"] ["H"], .clean ["c"]], hasConflicts := true, autoResolved := false }
    { status := .pending, hunkResolutions := [{ status := .pending, resolvedLines := [] }, { status := .acceptedBase, resolvedLines := ["c"] }] }
    (by decide) (by decide) (by decide)).1 0 ["B"] ["H"] (by decide)

/-- C4: if a conflict file of the session still has resolution status
`pending`, the commit handler returns before building a payload for
`commitMergeConflictResolution` — no remote write happens and no payload is
produced. -/
theorem handleCommit_rejects_pending (files : List ConflictFileData)
    (st : ResMap) (f : ConflictFileData) (fr : FileResolution)
    (hmem : f ∈ files) (hauto : f.autoResolved = false)
    (hget : mapGet st f.path = some fr) (hpend : fr.status = .pending) :
    handleCommit files st = none := by
  unfold handleCommit
  rw [if_neg]
  intro hall
  obtain ⟨-, hlen⟩ := hall
  have hfmem : f ∈ conflictFiles files := by
    unfold conflictFiles
    exact List.mem_filter.mpr ⟨hmem, by simp [hauto]⟩
  have hf := List.filter_length_eq_length.mp hlen f hfmem
  simp [hget, hpend] at hf

/-- Witness for C4: a one-conflict-file session in its initial state (hunk
still pending) produces no commit payload. -/
theorem handleCommit_rejects_pending_witness :
    handleCommit
      [{ path := "f", hunks := [.conflict ["B"] ["H"]], hasConflicts := true, autoResolved := false }]
      (initResolutions
        [{ path := "f", hunks := [.conflict ["B"] ["H"]], hasConflicts := true, autoResolved := false }]) =
      none :=
  handleCommit_rejects_pending
    [{ path := "f", hunks := [.conflict ["B"] ["H"]], hasConflicts := true, autoResolved := false }]
    (initResolutions
      [{ path := "f", hunks := [.conflict ["B"] ["H"]], hasConflicts := true, autoResolved := false }])
    { path := "f", hunks := [.conflict ["B"] ["H"]], hasConflicts := true, autoResolved := false }
    { status := .pending, hunkResolutions := [{ status := .pending, resolvedLines := [] }] }
    (by decide) rfl (by decide) rfl

/-- C9: when every file of the session is auto-resolved there are zero
conflict files, `allResolved` fails its strict-positivity requirement, and
the commit handler returns without building a payload. -/
theorem handleCommit_requires_conflict_file (files : List ConflictFileData)
    (st : ResMap) (hall : ∀ f ∈ files, f.autoResolved = true) :
    handleCommit files st = none := by
  unfold handleCommit
  rw [if_neg]
  intro h
  obtain ⟨hpos, -⟩ := h
  have hnil : conflictFiles files = [] := by
    unfold conflictFiles
    exact List.filter_eq_nil_iff.mpr (fun f hf => by simp [hall f hf])
  rw [hnil] at hpos
  simp at hpos

/-- Witness for C9: a session holding only one auto-resolved file can never
commit, no matter the tracker state. -/
theorem handleCommit_requires_conflict_file_witness :
    handleCommit
      [{ path := "a", hunks := [.clean ["x"]], hasConflicts := false, autoResolved := true }]
      (initResolutions
        [{ path := "a", hunks := [.clean ["x"]], hasConflicts := false, autoResolved := true }]) =
      none :=
  handleCommit_requires_conflict_file
    [{ path := "a", hunks := [.clean ["x"]], hasConflicts := false, autoResolved := true }]
    (initResolutions
      [{ path := "a", hunks := [.clean ["x"]], hasConflicts := false, autoResolved := true }])
    (by decide)

/-- C10: a changed file whose content is absent on both base and head is
classified with zero hunks and `autoResolved = true`; at commit time such a
file is still included in the payload, with content equal to the empty
string rather than being omitted as a deletion. -/
theorem bothAbsent_commits_empty_content :
    (∀ (merge : List String → List String → List String → MergeResult)
      (path : String) (a : Option String),
      classifyFile merge path a none none =
        { path := path, hunks := [], hasConflicts := false, autoResolved := true }) ∧
    (∀ (files : List ConflictFileData) (st : ResMap) (f : ConflictFileData)
      (fr : FileResolution) (payload : List (String × String)),
      f ∈ files → mapGet st f.path = some fr → fr.hunkResolutions = [] →
      handleCommit files st = some payload → (f.path, "") ∈ payload) := by
  constructor
  · intro merge path a
    unfold classifyFile
    rcases a with _ | ac <;> simp
  · intro files st f fr payload hmem hget hres hcommit
    unfold handleCommit at hcommit
    split at hcommit
    · injection hcommit with hpayload
      subst hpayload
      apply List.mem_filterMap.mpr
      refine ⟨f, hmem, ?_⟩
      have hcontent : fileCommitContent fr = "" := by
        simp only [fileCommitContent, hres, List.foldl_nil, joinNl, List.map_nil]
        rfl
      rw [hget]
      simp [hcontent]
    · exact absurd hcommit (by simp)

/-- Witness for C10: a session with one resolved conflict file and one
both-absent (zero-hunk) file commits a payload containing the latter with
empty content. -/
theorem bothAbsent_commits_empty_content_witness :
    ("e", "") ∈
      [("g", "B"), ("e", "")] ∧
    handleCommit
      [{ path := "g", hunks := [.conflict ["B"] ["H"]], hasConflicts := true, autoResolved := false },
       { path := "e", hunks := [], hasConflicts := false, autoResolved := true }]
      [("g", { status := .resolved, hunkResolutions := [{ status := .acceptedBase, resolvedLines := ["B"] }] }),
       ("e", { status := .autoResolved, hunkResolutions := [] })] =
      some [("g", "B"), ("e", "")] := by
  constructor
  · exact bothAbsent_commits_empty_content.2
      [{ path := "g", hunks := [.conflict ["B"] ["H"]], hasConflicts := true, autoResolved := false },
       { path := "e", hunks := [], hasConflicts := false, autoResolved := true }]
      [("g", { status := .resolved, hunkResolutions := [{ status := .acceptedBase, resolvedLines := ["B"] }] }),
       ("e", { status := .autoResolved, hunkResolutions := [] })]
      { path := "e", hunks := [], hasConflicts := false, autoResolved := true }
      { status := .autoResolved, hunkResolutions := [] }
      [("g", "B"), ("e", "")]
      (by decide) rfl rfl (by decide)
  · decide

theorem fetchMergeConflicts_ok_eq
    (merge : List String → List String → List String → MergeResult)
    (getContent : String → String → String → Except ThrownError GitHubContent)
    (owner base head : String) (comparison : Comparison) :
    fetchMergeConflicts merge (.ok comparison) getContent owner base head =
      .ok { mergeBaseSha := comparison.mergeBaseSha, baseBranch := base,
            headBranch := head,
            files := (comparison.files.take MAX_FILES).map (fun filePath =>
              classifyFile merge filePath
                (fetchContent (getContent owner filePath comparison.mergeBaseSha))
                (fetchContent (getContent owner filePath comparison.baseSha))
                (fetchContent (getContent
                  (if head.contains ':' then (head.splitOn ":").headD owner else owner)
                  filePath
                  ((comparison.commitShas.getLast?).getD comparison.mergeBaseSha)))) } := by
  simp only [fetchMergeConflicts]
  by_cases hlen : (comparison.files.take MAX_FILES).length = 0
  · rw [if_pos hlen, List.length_eq_zero.mp hlen]
    simp
  · rw [if_neg hlen]

/-- C6: a failed content fetch at one position is treated as absent content
(`fetchContent` of a thrown error is `null`) and never fails the route: a
successful comparison always yields a successful response whose files are
classified from the (possibly absent) fetched contents, for every content
oracle.  A failed comparison fails the whole route with the thrown error's
`httpStatus` (500 when absent), with a dedicated message when it is 404. -/
theorem fetch_failure_handling :
    (∀ e : ThrownError, fetchContent (.error e) = none) ∧
    (∀ (merge : List String → List String → List String → MergeResult)
      (getContent : String → String → String → Except ThrownError GitHubContent)
      (owner base head : String) (comparison : Comparison),
      fetchMergeConflicts merge (.ok comparison) getContent owner base head =
        .ok { mergeBaseSha := comparison.mergeBaseSha, baseBranch := base,
              headBranch := head,
              files := (comparison.files.take MAX_FILES).map (fun filePath =>
                classifyFile merge filePath
                  (fetchContent (getContent owner filePath comparison.mergeBaseSha))
                  (fetchContent (getContent owner filePath comparison.baseSha))
                  (fetchContent (getContent
                    (if head.contains ':' then (head.splitOn ":").headD owner else owner)
                    filePath
                    ((comparison.commitShas.getLast?).getD comparison.mergeBaseSha)))) }) ∧
    (∀ (merge : List String → List String → List String → MergeResult)
      (getContent : String → String → String → Except ThrownError GitHubContent)
      (owner base head : String) (e : ThrownError),
      fetchMergeConflicts merge (.error e) getContent owner base head =
        .error (routeError e) ∧
      (routeError e).status = e.status.getD 500 ∧
      (e.status = some 404 →
        (routeError e).message = "Could not compare branches. The branch may not exist or you may not have access. If this is a fork PR, ensure the head branch is accessible.")) := by
  refine ⟨fun e => rfl, ?_, ?_⟩
  · intro merge getContent owner base head comparison
    exact fetchMergeConflicts_ok_eq merge getContent owner base head comparison
  · intro merge getContent owner base head e
    refine ⟨rfl, ?_, ?_⟩
    · unfold routeError
      by_cases h404 : e.status.getD 500 = 404
      · rw [if_pos h404]
        simp [h404]
      · rw [if_neg h404]
    · intro h404
      unfold routeError
      rw [if_pos (by rw [h404]; rfl)]

/-- Witness for C6: a comparison with one file whose every content fetch
fails still succeeds (the file classifies as both-absent), and a 404
comparison failure surfaces the dedicated 404 error. -/
theorem fetch_failure_handling_witness :
    fetchMergeConflicts (fun _ _ _ => { hunks := [], hasConflicts := false })
      (.ok { mergeBaseSha := "m", baseSha := "bs", commitShas := [], files := ["f"] })
      (fun _ _ _ => .error { message := "boom", status := none }) "o" "b" "h" =
      .ok { mergeBaseSha := "m", baseBranch := "b", headBranch := "h",
            files := [{ path := "f", hunks := [], hasConflicts := false, autoResolved := true }] } ∧
    (routeError { message := "", status := some 404 }).message =
      "Could not compare branches. The branch may not exist or you may not have access. If this is a fork PR, ensure the head branch is accessible." := by
  constructor
  · rw [fetch_failure_handling.2.1 (fun _ _ _ => { hunks := [], hasConflicts := false })
      (fun _ _ _ => .error { message := "boom", status := none })
      "o" "b" "h"
      { mergeBaseSha := "m", baseSha := "bs", commitShas := [], files := ["f"] }]
    rfl
  · exact (fetch_failure_handling.2.2 (fun _ _ _ => { hunks := [], hasConflicts := false })
      (fun _ _ _ => .error { message := "boom", status := none })
      "o" "b" "h" { message := "", status := some 404 }).2.2 rfl

/-- C7 counterexample: the response for a comparison listing 31 changed
files is identical to the response for the comparison listing only its
first 30 files — the caller receives the truncated list with no partiality
marker, so the result is not reported as partial. -/
theorem truncation_unreported :
    fetchMergeConflicts (fun _ _ _ => { hunks := [], hasConflicts := false })
      (.ok { mergeBaseSha := "m", baseSha := "bs", commitShas := [],
             files := List.replicate 31 "f" })
      (fun _ _ _ => .error { message := "x", status := none }) "o" "b" "h" =
    fetchMergeConflicts (fun _ _ _ => { hunks := [], hasConflicts := false })
      (.ok { mergeBaseSha := "m", baseSha := "bs", commitShas := [],
             files := List.replicate 30 "f" })
      (fun _ _ _ => .error { message := "x", status := none }) "o" "b" "h" ∧
    (List.replicate 31 "f").length = 31 ∧ MAX_FILES = 30 := by
  refine ⟨?_, rfl, rfl⟩
  rfl

/-- C7 (amended): when the comparison lists more than `MAX_FILES = 30`
changed files, the route truncates to the first 30 in the comparison's
listed order and returns the classification of exactly those files; no
partiality indication accompanies the response. -/
theorem truncation_amended
    (merge : List String → List String → List String → MergeResult)
    (getContent : String → String → String → Except ThrownError GitHubContent)
    (owner base head : String) (comparison : Comparison)
    (hbig : MAX_FILES < comparison.files.length) :
    fetchMergeConflicts merge (.ok comparison) getContent owner base head =
      .ok { mergeBaseSha := comparison.mergeBaseSha, baseBranch := base,
            headBranch := head,
            files := (comparison.files.take MAX_FILES).map (fun filePath =>
              classifyFile merge filePath
                (fetchContent (getContent owner filePath comparison.mergeBaseSha))
                (fetchContent (getContent owner filePath comparison.baseSha))
                (fetchContent (getContent
                  (if head.contains ':' then (head.splitOn ":").headD owner else owner)
                  filePath
                  ((comparison.commitShas.getLast?).getD comparison.mergeBaseSha)))) } ∧
    ((comparison.files.take MAX_FILES).length = MAX_FILES ∧ MAX_FILES = 30) := by
  have hlen : (comparison.files.take MAX_FILES).length = MAX_FILES := by
    rw [List.length_take]
    omega
  exact ⟨fetchMergeConflicts_ok_eq merge getContent owner base head comparison,
    hlen, rfl⟩

/-- Witness for the amended C7: a 31-file comparison yields the 30-file
truncated response. -/
theorem truncation_amended_witness :
    fetchMergeConflicts (fun _ _ _ => { hunks := [], hasConflicts := false })
      (.ok { mergeBaseSha := "m", baseSha := "bs", commitShas := [],
             files := List.replicate 31 "f" })
      (fun _ _ _ => .error { message := "y", status := none }) "o" "b" "h" =
      .ok { mergeBaseSha := "m", baseBranch := "b", headBranch := "h",
            files := List.replicate 30
              { path := "f", hunks := [], hasConflicts := false, autoResolved := true } } := by
  rw [(truncation_amended (fun _ _ _ => { hunks := [], hasConflicts := false })
    (fun _ _ _ => .error { message := "y", status := none }) "o" "b" "h"
    { mergeBaseSha := "m", baseSha := "bs", commitShas := [],
      files := List.replicate 31 "f" } (by decide)).1]
  rfl

end BetterHub
